import Mathlib

/-
  Verification of the pulsedb core: a shallow embedding of the versioned
  key-value store (internal/store/store.go, internal/store TTL wheel), the
  RESP wire codec (internal/proto/resp.go) and the command dispatcher
  (internal/server/dispatch.go), with theorems settling the specification
  claims about them.

  Conventions of the embedding:
  * Go byte strings are modelled as `List Char`, one `Char` per byte.
  * Go `int64` is modelled as `Int`; where the source performs arithmetic
    that can overflow (TTL expiry computation, the dispatcher's
    seconds-to-milliseconds multiplication), the result is wrapped with
    `wrap64`, the two's-complement reduction into the int64 range.
  * `time.Now().UnixMilli()` becomes an explicit `now : Int` argument.
  * Go maps become association lists with lookup / replace / remove;
    a key's shard is a deterministic function of the key alone, so the
    union of the 64 shard maps is modelled as a single map.
  * Fallible operations return `Option` / `Bool × _` as in the source.
-/

/-- Two's-complement reduction of an unbounded integer into the signed
64-bit range, modelling Go `int64` arithmetic results. -/
def wrap64 (x : Int) : Int := (x + 2 ^ 63) % 2 ^ 64 - 2 ^ 63

theorem wrap64_eq_self {x : Int} (h1 : -(2 ^ 63) ≤ x) (h2 : x < 2 ^ 63) :
    wrap64 x = x := by
  unfold wrap64
  rw [Int.emod_eq_of_lt (by omega) (by omega)]
  omega

/-- Decimal digit characters, as produced by Go's integer formatting. -/
def digitChar (d : Nat) : Char :=
  match d with
  | 0 => '0'
  | 1 => '1'
  | 2 => '2'
  | 3 => '3'
  | 4 => '4'
  | 5 => '5'
  | 6 => '6'
  | 7 => '7'
  | 8 => '8'
  | _ => '9'

/-- Numeric value of a decimal digit character. -/
def digitVal (c : Char) : Nat := c.toNat - 48

/-- Whether a character is a decimal digit, as accepted by Go's strconv. -/
def isDigitChar (c : Char) : Bool := decide (48 ≤ c.toNat) && decide (c.toNat ≤ 57)

theorem digitChar_spec {d : Nat} (h : d < 10) :
    isDigitChar (digitChar d) = true ∧ digitVal (digitChar d) = d := by
  interval_cases d <;> exact ⟨by decide, by decide⟩

theorem isDigitChar_ne {c : Char} (h : isDigitChar c = true) :
    c ≠ '-' ∧ c ≠ '+' ∧ c ≠ '\r' ∧ c ≠ '\n' := by
  refine ⟨fun hc => ?_, fun hc => ?_, fun hc => ?_, fun hc => ?_⟩ <;> subst hc <;>
    exact absurd h (by decide)

/-- Decimal digits of `n`, most significant first; `go`-style fueled
recursion (`fuel` bounds the number of divisions, one per digit). -/
def natCharsAux : Nat → Nat → List Char
  | 0, _ => []
  | fuel + 1, n =>
    if n < 10 then [digitChar n]
    else natCharsAux fuel (n / 10) ++ [digitChar (n % 10)]

/-- Decimal representation of a natural number, as Go's `%d` / `Itoa`
produce it (no leading zeros, `0` for zero). -/
def natChars (n : Nat) : List Char := natCharsAux (n + 1) n

theorem natCharsAux_digits {fuel n : Nat} (h : n < fuel) :
    ∀ c ∈ natCharsAux fuel n, isDigitChar c = true := by
  induction fuel generalizing n with
  | zero => omega
  | succ fuel ih =>
    intro c hc
    unfold natCharsAux at hc
    by_cases h10 : n < 10
    · rw [if_pos h10] at hc
      simp at hc
      subst hc
      exact (digitChar_spec h10).1
    · rw [if_neg h10] at hc
      rcases List.mem_append.mp hc with h1 | h1
      · exact ih (by have hd : n / 10 < n := Nat.div_lt_self (by omega) (by omega); omega) c h1
      · simp at h1
        subst h1
        exact (digitChar_spec (Nat.mod_lt _ (by omega))).1

theorem natCharsAux_ne_nil {fuel n : Nat} (h : n < fuel) :
    natCharsAux fuel n ≠ [] := by
  cases fuel with
  | zero => omega
  | succ fuel =>
    unfold natCharsAux
    by_cases h10 : n < 10
    · simp [h10]
    · simp [h10]

theorem natChars_digits {n : Nat} : ∀ c ∈ natChars n, isDigitChar c = true :=
  natCharsAux_digits (Nat.lt_succ_self n)

theorem natChars_ne_nil {n : Nat} : natChars n ≠ [] :=
  natCharsAux_ne_nil (Nat.lt_succ_self n)

/-- Value accumulated by scanning decimal digits left to right. -/
def digitsFold (l : List Char) : Nat := l.foldl (fun acc c => acc * 10 + digitVal c) 0

theorem digitsFold_concat (l : List Char) (c : Char) :
    digitsFold (l ++ [c]) = digitsFold l * 10 + digitVal c := by
  simp [digitsFold, List.foldl_append]

theorem natCharsAux_fold {fuel n : Nat} (h : n < fuel) :
    digitsFold (natCharsAux fuel n) = n := by
  induction fuel generalizing n with
  | zero => omega
  | succ fuel ih =>
    unfold natCharsAux
    by_cases h10 : n < 10
    · rw [if_pos h10]
      simp [digitsFold, List.foldl, (digitChar_spec h10).2]
    · rw [if_neg h10]
      rw [digitsFold_concat]
      rw [ih (by have hd : n / 10 < n := Nat.div_lt_self (by omega) (by omega); omega)]
      rw [(digitChar_spec (Nat.mod_lt _ (by omega))).2]
      omega

theorem digitsFold_natChars (n : Nat) : digitsFold (natChars n) = n :=
  natCharsAux_fold (Nat.lt_succ_self n)

/-- Go `strconv` digit-run parsing: all characters must be digits and the
run must be non-empty; the value is the usual base-10 accumulation. -/
def parseDigitsAll (l : List Char) : Option Nat :=
  match l with
  | [] => none
  | _ :: _ => if l.all isDigitChar then some (digitsFold l) else none

theorem parseDigitsAll_natChars (n : Nat) : parseDigitsAll (natChars n) = some n := by
  obtain ⟨c, cs, hcons⟩ := List.exists_cons_of_ne_nil (natChars_ne_nil (n := n))
  unfold parseDigitsAll
  rw [hcons]
  have hall : (c :: cs).all isDigitChar = true := by
    rw [List.all_eq_true]
    intro x hx
    exact natChars_digits x (hcons ▸ hx)
  rw [hall]
  simp only [if_true]
  rw [← hcons, digitsFold_natChars]

/-- Decimal representation of a signed integer (Go `%d` / `FormatInt`). -/
def intChars (i : Int) : List Char :=
  if i < 0 then '-' :: natChars i.natAbs else natChars i.toNat

/-- Model of Go `strconv.ParseInt(s, 10, 64)` / `strconv.Atoi` on a whole
line: optional sign, then a non-empty digit run. The int64 range check is
not modelled (the embedding's integers are unbounded). -/
def parseIntChars (l : List Char) : Option Int :=
  match l with
  | [] => none
  | c :: cs =>
    if c = '-' then (parseDigitsAll cs).map (fun n => -(n : Int))
    else if c = '+' then (parseDigitsAll cs).map (fun n => (n : Int))
    else (parseDigitsAll (c :: cs)).map (fun n => (n : Int))

theorem parseIntChars_natChars (n : Nat) : parseIntChars (natChars n) = some (n : Int) := by
  obtain ⟨c, cs, hcons⟩ := List.exists_cons_of_ne_nil (natChars_ne_nil (n := n))
  have hdig : isDigitChar c = true := natChars_digits c (by rw [hcons]; exact List.mem_cons_self c cs)
  obtain ⟨hm, hp, _, _⟩ := isDigitChar_ne hdig
  rw [hcons]
  simp only [parseIntChars]
  rw [if_neg hm, if_neg hp, ← hcons, parseDigitsAll_natChars]
  rfl

theorem parseIntChars_intChars (i : Int) : parseIntChars (intChars i) = some i := by
  unfold intChars
  by_cases hneg : i < 0
  · rw [if_pos hneg]
    simp only [parseIntChars]
    rw [if_pos trivial, parseDigitsAll_natChars]
    have habs : -((i.natAbs : Nat) : Int) = i := by omega
    simp [habs, abs_of_neg hneg]
  · rw [if_neg hneg]
    rw [parseIntChars_natChars]
    congr 1
    omega

/-- Model of `RESPReader.readLine` up to the split point: the raw bytes
before the first LF and the remainder after it; `none` models the EOF
error when no LF is present (`bufio.ReadString` fails). -/
def splitLine : List Char → Option (List Char × List Char)
  | [] => none
  | c :: cs =>
    if c = '\n' then some ([], cs)
    else
      match splitLine cs with
      | none => none
      | some (l, r) => some (c :: l, r)

/-- The trailing-terminator strip of `readLine`: the line always ends in
LF (already removed by `splitLine`); a preceding CR is removed too. -/
def stripCR (l : List Char) : List Char :=
  if l.getLast? = some '\r' then l.dropLast else l

/-- Model of `RESPReader.readLine`: bytes up to the next LF with the
final CRLF (or bare LF) removed, plus the unread remainder. -/
def readLine (input : List Char) : Option (List Char × List Char) :=
  match splitLine input with
  | none => none
  | some (l, r) => some (stripCR l, r)

theorem splitLine_append {s : List Char} (h : '\n' ∉ s) (rest : List Char) :
    splitLine (s ++ '\n' :: rest) = some (s, rest) := by
  induction s with
  | nil => simp [splitLine]
  | cons c cs ih =>
    have hc : c ≠ '\n' := fun hc => h (hc ▸ List.mem_cons_self c cs)
    have hcs : '\n' ∉ cs := fun hm => h (List.mem_cons_of_mem c hm)
    simp only [List.cons_append, splitLine, List.append_eq, if_neg hc, ih hcs]

theorem readLine_crlf {s : List Char} (h : '\n' ∉ s) (rest : List Char) :
    readLine (s ++ '\r' :: '\n' :: rest) = some (s, rest) := by
  have hsplit : splitLine ((s ++ ['\r']) ++ '\n' :: rest) = some (s ++ ['\r'], rest) := by
    refine splitLine_append ?_ rest
    intro hm
    rcases List.mem_append.mp hm with hm | hm
    · exact h hm
    · simp at hm
  unfold readLine
  rw [show s ++ '\r' :: '\n' :: rest = (s ++ ['\r']) ++ '\n' :: rest by simp]
  rw [hsplit]
  simp [stripCR]

/-- The typed wire value of `internal/proto/resp.go`. The Go struct is a
tag plus payload fields and a null flag valid only for BulkString and
Array; well-formed values are modelled as a tagged variant with the two
null shapes as their own arms. -/
inductive RESPValue where
  | simpleString (s : List Char)
  | err (s : List Char)
  | integer (i : Int)
  | bulkString (s : List Char)
  | nullBulkString
  | array (elems : List RESPValue)
  | nullArray

mutual

/-- Model of `RESPWriter.WriteValue`: the exact byte sequence written for
a value (`+`/`-`/`:` line frames, `$`-length-prefixed bulk frames with
`$-1\r\n` for null, `*`-counted arrays with `*-1\r\n` for null). -/
def serializeRESP : RESPValue → List Char
  | .simpleString s => '+' :: (s ++ ['\r', '\n'])
  | .err s => '-' :: (s ++ ['\r', '\n'])
  | .integer i => ':' :: (intChars i ++ ['\r', '\n'])
  | .bulkString s => '$' :: (natChars s.length ++ ['\r', '\n'] ++ s ++ ['\r', '\n'])
  | .nullBulkString => ['$', '-', '1', '\r', '\n']
  | .array es => '*' :: (natChars es.length ++ ['\r', '\n'] ++ serializeListRESP es)
  | .nullArray => ['*', '-', '1', '\r', '\n']

/-- Concatenated serialization of an array's elements, in order. -/
def serializeListRESP : List RESPValue → List Char
  | [] => []
  | v :: vs => serializeRESP v ++ serializeListRESP vs

end

mutual

/-- Well-formedness of a wire value: SimpleString and Error lines must
not contain CR or LF (RESP line frames cannot carry them); array
elements are well-formed recursively. All other arms are unrestricted. -/
def wfRESP : RESPValue → Bool
  | .simpleString s => s.all fun c => decide (c ≠ '\r') && decide (c ≠ '\n')
  | .err s => s.all fun c => decide (c ≠ '\r') && decide (c ≠ '\n')
  | .integer _ => true
  | .bulkString _ => true
  | .nullBulkString => true
  | .array es => wfListRESP es
  | .nullArray => true

/-- Well-formedness of a list of wire values. -/
def wfListRESP : List RESPValue → Bool
  | [] => true
  | v :: vs => wfRESP v && wfListRESP vs

end

/-- The element loop of `readArray`: parse `n` consecutive values with
the given single-value parser, threading the remaining input. -/
def parseElemsWith (p : List Char → Option (RESPValue × List Char)) :
    Nat → List Char → Option (List RESPValue × List Char)
  | 0, input => some ([], input)
  | n + 1, input =>
    match p input with
    | none => none
    | some (v, r) =>
      match parseElemsWith p n r with
      | none => none
      | some (vs, r2) => some (v :: vs, r2)

/-- One step of `RESPReader.Read`: dispatch on the type byte, with `ih`
standing for the recursive `Read` used by the array branch. Mirrors
`readSimpleString` / `readError` / `readInteger` / `readBulkString` /
`readArray`, including that `readBulkString` consumes `len + 2` bytes
and never checks the two trailing bytes, and that length `-1` yields the
null value while other negative lengths are protocol errors. -/
def parseBody (ih : List Char → Option (RESPValue × List Char)) (input : List Char) :
    Option (RESPValue × List Char) :=
  match input with
  | [] => none
  | c :: cs =>
    if c = '+' then
      match readLine cs with
      | none => none
      | some (l, r) => some (.simpleString l, r)
    else if c = '-' then
      match readLine cs with
      | none => none
      | some (l, r) => some (.err l, r)
    else if c = ':' then
      match readLine cs with
      | none => none
      | some (l, r) =>
        match parseIntChars l with
        | none => none
        | some i => some (.integer i, r)
    else if c = '$' then
      match readLine cs with
      | none => none
      | some (l, r) =>
        match parseIntChars l with
        | none => none
        | some len =>
          if len = -1 then some (.nullBulkString, r)
          else if len < 0 then none
          else if r.length < len.toNat + 2 then none
          else some (.bulkString (r.take len.toNat), r.drop (len.toNat + 2))
    else if c = '*' then
      match readLine cs with
      | none => none
      | some (l, r) =>
        match parseIntChars l with
        | none => none
        | some len =>
          if len = -1 then some (.nullArray, r)
          else if len < 0 then none
          else
            match parseElemsWith ih len.toNat r with
            | none => none
            | some (es, r2) => some (.array es, r2)
    else none

/-- Fueled `RESPReader.Read`: the fuel bounds the nesting depth of
arrays (each recursion into an element spends one unit). -/
def parseVal (fuel : Nat) : List Char → Option (RESPValue × List Char) :=
  Nat.rec (motive := fun _ => List Char → Option (RESPValue × List Char))
    (fun _ => none) (fun _ ih => parseBody ih) fuel

theorem parseVal_succ (fuel : Nat) : parseVal (fuel + 1) = parseBody (parseVal fuel) := rfl

/-- Model of `RESPReader.Read` on a finite input: the input's length
bounds any frame's nesting depth, so it is sufficient fuel. -/
def parseRESP (input : List Char) : Option (RESPValue × List Char) :=
  parseVal input.length input

mutual

/-- Array-nesting depth of a value: the fuel `parseVal` needs for it. -/
def depthRESP : RESPValue → Nat
  | .simpleString _ => 1
  | .err _ => 1
  | .integer _ => 1
  | .bulkString _ => 1
  | .nullBulkString => 1
  | .array es => 1 + depthListRESP es
  | .nullArray => 1

/-- Maximal nesting depth over a list of values. -/
def depthListRESP : List RESPValue → Nat
  | [] => 0
  | v :: vs => max (depthRESP v) (depthListRESP vs)

end

theorem natChars_no_lf {n : Nat} : '\n' ∉ natChars n := fun hm =>
  absurd (natChars_digits '\n' hm) (by decide)

theorem intChars_no_lf {i : Int} : '\n' ∉ intChars i := by
  unfold intChars
  by_cases hneg : i < 0
  · rw [if_pos hneg]
    intro hm
    rcases List.mem_cons.mp hm with hm | hm
    · exact absurd hm (by decide)
    · exact natChars_no_lf hm
  · rw [if_neg hneg]
    exact natChars_no_lf

theorem no_lf_of_line_ok {s : List Char}
    (h : (s.all fun c => decide (c ≠ '\r') && decide (c ≠ '\n')) = true) : '\n' ∉ s := by
  intro hm
  have := List.all_eq_true.mp h '\n' hm
  simp at this

mutual

theorem parseVal_serializeRESP : ∀ (v : RESPValue), wfRESP v = true →
    ∀ (fuel : Nat), depthRESP v ≤ fuel → ∀ (rest : List Char),
    parseVal fuel (serializeRESP v ++ rest) = some (v, rest)
  | .simpleString s, hwf, fuel, hfuel, rest => by
    obtain ⟨f, rfl⟩ : ∃ f, fuel = f + 1 := ⟨fuel - 1, by simp [depthRESP] at hfuel; omega⟩
    rw [parseVal_succ]
    simp only [serializeRESP, List.cons_append, List.append_assoc, List.cons_append,
      List.nil_append]
    simp only [parseBody]
    rw [readLine_crlf (no_lf_of_line_ok (by simpa [wfRESP] using hwf)) rest]
    simp
  | .err s, hwf, fuel, hfuel, rest => by
    obtain ⟨f, rfl⟩ : ∃ f, fuel = f + 1 := ⟨fuel - 1, by simp [depthRESP] at hfuel; omega⟩
    rw [parseVal_succ]
    simp only [serializeRESP, List.cons_append, List.append_assoc, List.cons_append,
      List.nil_append]
    simp only [parseBody]
    rw [readLine_crlf (no_lf_of_line_ok (by simpa [wfRESP] using hwf)) rest]
    simp
  | .integer i, _, fuel, hfuel, rest => by
    obtain ⟨f, rfl⟩ : ∃ f, fuel = f + 1 := ⟨fuel - 1, by simp [depthRESP] at hfuel; omega⟩
    rw [parseVal_succ]
    simp only [serializeRESP, List.cons_append, List.append_assoc, List.cons_append,
      List.nil_append]
    simp only [parseBody]
    rw [readLine_crlf intChars_no_lf rest]
    simp [parseIntChars_intChars]
  | .bulkString s, _, fuel, hfuel, rest => by
    obtain ⟨f, rfl⟩ : ∃ f, fuel = f + 1 := ⟨fuel - 1, by simp [depthRESP] at hfuel; omega⟩
    rw [parseVal_succ]
    simp only [serializeRESP, List.cons_append, List.append_assoc, List.cons_append,
      List.nil_append]
    simp only [parseBody]
    rw [readLine_crlf natChars_no_lf]
    simp only [parseIntChars_natChars]
    have htoNat : ((s.length : Int)).toNat = s.length := by omega
    have htake : (s ++ '\r' :: '\n' :: rest).take s.length = s := List.take_left s _
    have hshape : s ++ '\r' :: '\n' :: rest = (s ++ ['\r', '\n']) ++ rest := by simp
    have hlen2 : (s ++ ['\r', '\n']).length = s.length + 2 := by simp
    have hdrop : (s ++ '\r' :: '\n' :: rest).drop (s.length + 2) = rest := by
      rw [hshape, ← hlen2, List.drop_left]
    simp only [htoNat]
    rw [if_pos trivial]
    rw [if_neg (by omega : ¬ ((s.length : Int) = -1))]
    rw [if_neg (by omega : ¬ ((s.length : Int) < 0))]
    rw [if_neg (show ¬ ((s ++ '\r' :: '\n' :: rest).length < s.length + 2) by
      simp only [List.length_append, List.length_cons]
      omega)]
    rw [htake, hdrop]
    simp
  | .nullBulkString, _, fuel, hfuel, rest => by
    obtain ⟨f, rfl⟩ : ∃ f, fuel = f + 1 := ⟨fuel - 1, by simp [depthRESP] at hfuel; omega⟩
    rw [parseVal_succ]
    simp [serializeRESP, parseBody, readLine, splitLine, stripCR, parseIntChars,
      parseDigitsAll, digitsFold, digitVal, isDigitChar]
  | .array es, hwf, fuel, hfuel, rest => by
    obtain ⟨f, rfl⟩ : ∃ f, fuel = f + 1 :=
      ⟨fuel - 1, by simp [depthRESP] at hfuel; omega⟩
    have hdep : depthListRESP es ≤ f := by
      simp only [depthRESP] at hfuel
      omega
    rw [parseVal_succ]
    simp only [serializeRESP, List.cons_append, List.append_assoc, List.cons_append,
      List.nil_append]
    simp only [parseBody]
    rw [readLine_crlf natChars_no_lf]
    simp only [parseIntChars_natChars]
    have htoNat : ((es.length : Int)).toNat = es.length := by omega
    simp only [htoNat]
    rw [parseElems_serializeListRESP es (by simpa [wfRESP] using hwf) f hdep rest]
    rw [if_neg (by decide : ¬ ('*' : Char) = ':')]
    rw [if_neg (by decide : ¬ ('*' : Char) = '$')]
    rw [if_pos trivial]
    rw [if_neg (by omega : ¬ ((es.length : Int) = -1))]
    rw [if_neg (by omega : ¬ ((es.length : Int) < 0))]
    simp
  | .nullArray, _, fuel, hfuel, rest => by
    obtain ⟨f, rfl⟩ : ∃ f, fuel = f + 1 := ⟨fuel - 1, by simp [depthRESP] at hfuel; omega⟩
    rw [parseVal_succ]
    simp [serializeRESP, parseBody, readLine, splitLine, stripCR, parseIntChars,
      parseDigitsAll, digitsFold, digitVal, isDigitChar]

theorem parseElems_serializeListRESP : ∀ (vs : List RESPValue), wfListRESP vs = true →
    ∀ (fuel : Nat), depthListRESP vs ≤ fuel → ∀ (rest : List Char),
    parseElemsWith (parseVal fuel) vs.length (serializeListRESP vs ++ rest) = some (vs, rest)
  | [], _, fuel, _, rest => by simp [serializeListRESP, parseElemsWith]
  | v :: vs, hwf, fuel, hfuel, rest => by
    have hwf1 : wfRESP v = true := by
      simp only [wfListRESP, Bool.and_eq_true] at hwf
      exact hwf.1
    have hwf2 : wfListRESP vs = true := by
      simp only [wfListRESP, Bool.and_eq_true] at hwf
      exact hwf.2
    have hd1 : depthRESP v ≤ fuel := by
      simp only [depthListRESP] at hfuel
      omega
    have hd2 : depthListRESP vs ≤ fuel := by
      simp only [depthListRESP] at hfuel
      omega
    simp only [serializeListRESP, List.length_cons, parseElemsWith, List.append_assoc,
      parseVal_serializeRESP v hwf1 fuel hd1, parseElems_serializeListRESP vs hwf2 fuel hd2]

end

mutual

theorem depthRESP_le_serialized : ∀ (v : RESPValue), depthRESP v ≤ (serializeRESP v).length
  | .simpleString s => by simp [depthRESP, serializeRESP]
  | .err s => by simp [depthRESP, serializeRESP]
  | .integer i => by simp [depthRESP, serializeRESP]
  | .bulkString s => by simp [depthRESP, serializeRESP]
  | .nullBulkString => by simp [depthRESP, serializeRESP]
  | .array es => by
    have h := depthListRESP_le_serialized es
    simp only [depthRESP, serializeRESP, List.length_cons, List.length_append]
    omega
  | .nullArray => by simp [depthRESP, serializeRESP]

theorem depthListRESP_le_serialized :
    ∀ (vs : List RESPValue), depthListRESP vs ≤ (serializeListRESP vs).length
  | [] => by simp [depthListRESP, serializeListRESP]
  | v :: vs => by
    have h1 := depthRESP_le_serialized v
    have h2 := depthListRESP_le_serialized vs
    simp only [depthListRESP, serializeListRESP, List.length_append]
    omega

end

/-- C5: for every well-formed wire value `v` (the five typed arms, with
null BulkString and null Array as themselves), parsing the bytes that
serializing `v` produces yields `v` back with no input left over. -/
theorem c5_wire_roundtrip (v : RESPValue) (hwf : wfRESP v = true) :
    parseRESP (serializeRESP v) = some (v, []) := by
  unfold parseRESP
  have h := parseVal_serializeRESP v hwf (serializeRESP v).length (depthRESP_le_serialized v) []
  simpa using h

/-- Concrete wire value exercising every arm of `RESPValue`. -/
def c5Value : RESPValue :=
  .array [.integer (-5), .bulkString ['a', 'b'], .simpleString ['O', 'K'], .err ['E'],
    .nullBulkString, .nullArray, .array [.integer 12]]

theorem c5_wire_roundtrip_witness :
    wfRESP c5Value = true ∧ parseRESP (serializeRESP c5Value) = some (c5Value, []) :=
  ⟨by decide, c5_wire_roundtrip c5Value (by decide)⟩

/-- C8: the parser accepts a bulk-string frame whose two bytes after the
payload are arbitrary — `readBulkString` consumes `len + 2` bytes but
never checks the trailing pair against CRLF — and returns the payload as
a BulkString rather than a protocol error. -/
theorem c8_bulk_trailing_bytes_unchecked (n : Nat) (p : List Char) (x y : Char)
    (rest : List Char) (hlen : p.length = n) :
    parseRESP ('$' :: (natChars n ++ '\r' :: '\n' :: (p ++ x :: y :: rest)))
      = some (.bulkString p, rest) := by
  subst hlen
  unfold parseRESP
  rw [List.length_cons, parseVal_succ]
  simp only [parseBody]
  rw [readLine_crlf natChars_no_lf]
  simp only [parseIntChars_natChars]
  have htoNat : ((p.length : Int)).toNat = p.length := by omega
  simp only [htoNat]
  rw [if_pos trivial]
  rw [if_neg (by omega : ¬ ((p.length : Int) = -1))]
  rw [if_neg (by omega : ¬ ((p.length : Int) < 0))]
  rw [if_neg (show ¬ ((p ++ x :: y :: rest).length < p.length + 2) by
    simp only [List.length_append, List.length_cons]
    omega)]
  have htake : (p ++ x :: y :: rest).take p.length = p := List.take_left p _
  have hshape : p ++ x :: y :: rest = (p ++ [x, y]) ++ rest := by simp
  have hlen2 : (p ++ [x, y]).length = p.length + 2 := by simp
  have hdrop : (p ++ x :: y :: rest).drop (p.length + 2) = rest := by
    rw [hshape, ← hlen2, List.drop_left]
  rw [htake, hdrop]
  simp

theorem c8_bulk_trailing_bytes_unchecked_witness :
    parseRESP ('$' :: (natChars 3 ++ '\r' :: '\n' :: (['a', 'b', 'c'] ++ 'X' :: 'Y' :: [])))
      = some (.bulkString ['a', 'b', 'c'], []) :=
  c8_bulk_trailing_bytes_unchecked 3 ['a', 'b', 'c'] 'X' 'Y' [] (by decide)

/-- A versioned value (`store.Value`): payload bytes, write timestamp in
Unix milliseconds, and expiry timestamp in Unix milliseconds with `0`
meaning "no expiration". -/
structure Value where
  data : List Char
  timestamp : Int
  ttl : Int
deriving DecidableEq

/-- Association-list lookup, modelling Go map indexing. -/
def alookup (k : List Char) : List (List Char × α) → Option α
  | [] => none
  | (k2, v) :: rest => if k2 = k then some v else alookup k rest

/-- Association-list insert-or-replace, modelling Go map assignment. -/
def aupdate (k : List Char) (v : α) : List (List Char × α) → List (List Char × α)
  | [] => [(k, v)]
  | (k2, v2) :: rest => if k2 = k then (k, v) :: rest else (k2, v2) :: aupdate k v rest

/-- Association-list removal, modelling Go map `delete`. -/
def aremove (k : List Char) : List (List Char × α) → List (List Char × α)
  | [] => []
  | (k2, v2) :: rest => if k2 = k then rest else (k2, v2) :: aremove k rest

/-- The store state: the union of the 64 shard maps (one key lives in
exactly one shard, determined by the key alone, so per-key behavior is
that of a single map), plus the TTL wheel's key → expiry map. -/
structure Store where
  data : List (List Char × List Value)
  ttlWheel : List (List Char × Int)
deriving DecidableEq

/-- The state `NewStore` creates: no keys, empty TTL wheel. -/
def emptyStore : Store := { data := [], ttlWheel := [] }

/-- `MaxVersions` from the source. -/
def maxVersions : Nat := 10

/-- Model of `Store.Set`: computes the expiry (`now + ttlMs` in int64
arithmetic when `ttlMs > 0`, else `0`), adds the key to the TTL wheel
only when `ttlMs > 0`, appends the new version to the key's chain, and
truncates the chain from the left to the most recent `MaxVersions`. -/
def Store.set (s : Store) (key value : List Char) (ttlMs now : Int) : Store :=
  let expiration : Int := if ttlMs > 0 then wrap64 (now + ttlMs) else 0
  let wheel := if ttlMs > 0 then aupdate key (wrap64 (now + ttlMs)) s.ttlWheel else s.ttlWheel
  let chain := ((alookup key s.data).getD []) ++ [⟨value, now, expiration⟩]
  let chain2 := if chain.length > maxVersions then chain.drop (chain.length - maxVersions)
    else chain
  { data := aupdate key chain2 s.data, ttlWheel := wheel }

/-- Model of `Store.GetAt`: scan the chain from the tail backwards for
the first version with `write_ts ≤ ts`; if it exists and is expired at
`ts` (`expiry_ts > 0` and `ts ≥ expiry_ts`) the key is not found,
otherwise its payload is returned. -/
def Store.getAt (s : Store) (key : List Char) (ts : Int) : Option (List Char) :=
  match alookup key s.data with
  | none => none
  | some versions =>
    match versions.reverse.find? (fun v => decide (v.timestamp ≤ ts)) with
    | none => none
    | some v => if v.ttl > 0 ∧ ts ≥ v.ttl then none else some v.data

/-- Model of `Store.Get`: a `GetAt` at the current clock reading. -/
def Store.get (s : Store) (key : List Char) (now : Int) : Option (List Char) :=
  s.getAt key now

/-- Model of `Store.Delete`: removes the chain and the TTL wheel entry;
reports whether the key existed. -/
def Store.delete (s : Store) (key : List Char) : Bool × Store :=
  match alookup key s.data with
  | none => (false, s)
  | some _ => (true, { data := aremove key s.data, ttlWheel := aremove key s.ttlWheel })

/-- Replace the expiry of the last element of a chain. -/
def updateLast (e : Int) : List Value → List Value
  | [] => []
  | [v] => [{ v with ttl := e }]
  | v :: v2 :: rest => v :: updateLast e (v2 :: rest)

/-- Model of `Store.Expire`: fails on a missing key or empty chain;
otherwise sets the tail's expiry to `now + ttlMs` (int64 arithmetic) and
adds that expiry to the TTL wheel. -/
def Store.expire (s : Store) (key : List Char) (ttlMs now : Int) : Bool × Store :=
  match alookup key s.data with
  | none => (false, s)
  | some versions =>
    match versions with
    | [] => (false, s)
    | v :: rest =>
      let expiration := wrap64 (now + ttlMs)
      (true, { data := aupdate key (updateLast expiration (v :: rest)) s.data,
               ttlWheel := aupdate key expiration s.ttlWheel })

/-- Model of `Store.TTL`: `-2` for a missing key, an empty chain, or a
tail expiry that `now` has reached; `-1` for a tail with no expiration;
otherwise the remaining milliseconds `expiry_ts - now` (int64
subtraction). -/
def Store.ttl (s : Store) (key : List Char) (now : Int) : Int :=
  match alookup key s.data with
  | none => -2
  | some versions =>
    match versions.getLast? with
    | none => -2
    | some v =>
      if v.ttl = 0 then -1
      else if now ≥ v.ttl then -2
      else wrap64 (v.ttl - now)

/-- Insert a version into a list sorted by descending timestamp. -/
def insertDesc (v : Value) : List Value → List Value
  | [] => [v]
  | w :: ws => if v.timestamp > w.timestamp then v :: w :: ws else w :: insertDesc v ws

/-- Sort versions by write timestamp, newest first. Models the
`sort.Slice(..., versions[i].Timestamp > versions[j].Timestamp)` call in
`Store.History` (the Go sort is unstable, so the order among equal
timestamps is unspecified there; this insertion sort realizes one valid
ordering, and the claims below depend only on the timestamp order). -/
def sortDesc : List Value → List Value
  | [] => []
  | v :: vs => insertDesc v (sortDesc vs)

/-- Model of `Store.History`: a copy of the chain sorted newest-first;
a positive `limit` smaller than the chain length truncates the result. -/
def Store.history (s : Store) (key : List Char) (limit : Int) : List Value :=
  match alookup key s.data with
  | none => []
  | some versions =>
    let sorted := sortDesc versions
    if 0 < limit ∧ limit < (sorted.length : Int) then sorted.take limit.toNat else sorted

/-- The chain stored for a key (empty when the key is absent). -/
def chainOf (s : Store) (key : List Char) : List Value := (alookup key s.data).getD []

/-- Model of `CommandDispatcher.handleTTL` after arity validation: the
response is `Integer (store.TTL(key) / 1000)`, Go's `/` on int64 being
truncation toward zero (`Int.tdiv`). -/
def handleTTL (s : Store) (key : List Char) (now : Int) : RESPValue :=
  .integer (Int.tdiv (s.ttl key now) 1000)

/-- Model of `CommandDispatcher.handleExpire` after arity validation and
a successful `ParseInt` of the seconds argument: multiply by 1000 in
int64 arithmetic, call `store.Expire`, answer Integer 1 or 0. -/
def handleExpire (s : Store) (key : List Char) (secs now : Int) : RESPValue × Store :=
  let r := s.expire key (wrap64 (secs * 1000)) now
  (if r.1 then .integer 1 else .integer 0, r.2)

/-- The response array `handleHist` builds: alternating Integer write
timestamp and BulkString payload, one pair per history entry in order. -/
def histPairs : List Value → List RESPValue
  | [] => []
  | v :: vs => .integer v.timestamp :: .bulkString v.data :: histPairs vs

/-- Model of `CommandDispatcher.handleHist` after arity and limit
validation: a (non-null) Array of the flattened history. -/
def handleHist (s : Store) (key : List Char) (limit : Int) : RESPValue :=
  .array (histPairs (s.history key limit))

theorem alookup_aupdate_self (k : List Char) (v : α) (l : List (List Char × α)) :
    alookup k (aupdate k v l) = some v := by
  induction l with
  | nil => simp [aupdate, alookup]
  | cons p rest ih =>
    obtain ⟨k2, v2⟩ := p
    by_cases h : k2 = k
    · simp [aupdate, alookup, h]
    · simp [aupdate, alookup, h, ih]

/-- C1 (evidence for the code bug): on the wire, the TTL sentinels are
lost. `store.TTL` itself answers `-2` for a missing key and `-1` for a
key without expiration, but `handleTTL` divides by 1000 with truncation
toward zero, so both sentinels reach the client as `Integer 0`. -/
theorem c1_ttl_sentinels_lost_on_wire :
    emptyStore.ttl ['k'] 1000 = -2 ∧
    handleTTL emptyStore ['k'] 1000 = .integer 0 ∧
    (emptyStore.set ['k'] ['v'] 0 500).ttl ['k'] 1000 = -1 ∧
    handleTTL (emptyStore.set ['k'] ['v'] 0 500) ['k'] 1000 = .integer 0 :=
  ⟨rfl, rfl, rfl, rfl⟩

/-- C2 (counterexample): `Set(k, v, 0)` does not remove the TTL-index
entry. After `Set k a (ttl 100ms) at t=1000` then `Set k b (ttl 0) at
t=1001`, the wheel still maps `k` to `1100` while the chain tail has
`expiry_ts = 0`, so the index entry differs from the tail's expiry. -/
theorem c2_set_zero_keeps_stale_wheel_entry :
    alookup ['k'] ((emptyStore.set ['k'] ['a'] 100 1000).set ['k'] ['b'] 0 1001).ttlWheel
        = some 1100 ∧
    (chainOf ((emptyStore.set ['k'] ['a'] 100 1000).set ['k'] ['b'] 0 1001) ['k']).getLast?
        = some ⟨['b'], 1001, 0⟩ :=
  ⟨rfl, rfl⟩

/-- C2 (amended): a `Set` with `ttl_ms = 0` never touches the TTL wheel
(there is no `TTL.Remove` call in `Store.Set`), so a prior TTL-index
entry survives a zero-TTL overwrite and may differ from the new tail's
`expiry_ts`. -/
theorem c2_set_zero_ttl_wheel_unchanged (s : Store) (k v : List Char) (now : Int) :
    (s.set k v 0 now).ttlWheel = s.ttlWheel := rfl

/-- C6: `store.TTL` follows the sentinel protocol: `-2` when the key is
absent or its chain is empty, `-1` when the tail carries `expiry_ts = 0`,
`-2` when `now` has reached a non-zero tail expiry, and otherwise the
remaining `expiry_ts - now`, which is positive (stated under a
non-negative clock and an in-int64-range stored expiry, where the int64
subtraction is exact). -/
theorem c6_store_ttl_sentinels (s : Store) (k : List Char) (now : Int) :
    (alookup k s.data = none → s.ttl k now = -2) ∧
    (∀ c, alookup k s.data = some c →
      (c = [] → s.ttl k now = -2) ∧
      (∀ v, c.getLast? = some v →
        (v.ttl = 0 → s.ttl k now = -1) ∧
        (v.ttl ≠ 0 → now ≥ v.ttl → s.ttl k now = -2) ∧
        (v.ttl ≠ 0 → now < v.ttl → 0 ≤ now → v.ttl < 2 ^ 63 →
          s.ttl k now = v.ttl - now ∧ 0 < s.ttl k now))) := by
  refine ⟨fun h => by simp [Store.ttl, h], fun c hc => ⟨fun hc0 => ?_, fun v hv => ?_⟩⟩
  · subst hc0
    simp [Store.ttl, hc]
  · refine ⟨fun h0 => ?_, fun h0 hnow => ?_, fun h0 hnow hcl hrange => ?_⟩
    · simp [Store.ttl, hc, hv, h0]
    · simp [Store.ttl, hc, hv, h0, hnow]
    · have hw : wrap64 (v.ttl - now) = v.ttl - now :=
        wrap64_eq_self (by omega) (by omega)
      have hval : s.ttl k now = v.ttl - now := by
        simp only [Store.ttl, hc, hv]
        rw [if_neg h0, if_neg (by omega : ¬ now ≥ v.ttl), hw]
      exact ⟨hval, by omega⟩

theorem c6_store_ttl_sentinels_witness :
    emptyStore.ttl ['k'] 5 = -2 ∧
    (emptyStore.set ['k'] ['v'] 0 10).ttl ['k'] 20 = -1 ∧
    (emptyStore.set ['k'] ['v'] 50 10).ttl ['k'] 100 = -2 ∧
    ((emptyStore.set ['k'] ['v'] 50 10).ttl ['k'] 20 = 40 ∧
      0 < (emptyStore.set ['k'] ['v'] 50 10).ttl ['k'] 20) :=
  ⟨(c6_store_ttl_sentinels emptyStore ['k'] 5).1 rfl,
   (((c6_store_ttl_sentinels (emptyStore.set ['k'] ['v'] 0 10) ['k'] 20).2 _ rfl).2 _ rfl).1 rfl,
   ((((c6_store_ttl_sentinels (emptyStore.set ['k'] ['v'] 50 10) ['k'] 100).2 _ rfl).2 _
     rfl).2.1 (by decide) (by decide)),
   ((((c6_store_ttl_sentinels (emptyStore.set ['k'] ['v'] 50 10) ['k'] 20).2 _ rfl).2 _
     rfl).2.2 (by decide) (by decide) (by decide) (by decide))⟩

theorem updateLast_eq {l : List Value} {v : Value} (e : Int) (h : l.getLast? = some v) :
    updateLast e l = l.dropLast ++ [{ v with ttl := e }] := by
  induction l with
  | nil => simp at h
  | cons x xs ih =>
    cases xs with
    | nil =>
      simp [List.getLast?] at h
      subst h
      simp [updateLast]
    | cons y ys =>
      have h2 : (y :: ys).getLast? = some v := by
        rw [List.getLast?_cons_cons] at h
        exact h
      simp only [updateLast, ih h2, List.dropLast_cons_of_ne_nil (List.cons_ne_nil y ys),
        List.cons_append]

/-- C7: `store.Expire` succeeds exactly when the key exists with at
least one version; on success the tail's expiry becomes `now + ttl_ms`
(int64 arithmetic) and the TTL-wheel entry is set to that same value,
the rest of the chain being untouched; on failure the store state is
returned unchanged. -/
theorem c7_expire_spec (s : Store) (k : List Char) (ttlMs now : Int) :
    ((s.expire k ttlMs now).1 = true ↔ ∃ c, alookup k s.data = some c ∧ c ≠ []) ∧
    (∀ c v, alookup k s.data = some c → c.getLast? = some v →
      alookup k (s.expire k ttlMs now).2.data
          = some (c.dropLast ++ [{ v with ttl := wrap64 (now + ttlMs) }]) ∧
      alookup k (s.expire k ttlMs now).2.ttlWheel = some (wrap64 (now + ttlMs))) ∧
    ((s.expire k ttlMs now).1 = false → (s.expire k ttlMs now).2 = s) := by
  refine ⟨?_, ?_, ?_⟩
  · constructor
    · intro h
      cases hc : alookup k s.data with
      | none => simp [Store.expire, hc] at h
      | some c =>
        cases c with
        | nil => simp [Store.expire, hc] at h
        | cons v rest => exact ⟨v :: rest, rfl, List.cons_ne_nil v rest⟩
    · rintro ⟨c, hc, hne⟩
      cases c with
      | nil => exact absurd rfl hne
      | cons v rest => simp [Store.expire, hc]
  · intro c v hc hv
    cases c with
    | nil => simp at hv
    | cons x rest =>
      have hupd := updateLast_eq (wrap64 (now + ttlMs)) hv
      simp only [Store.expire, hc]
      rw [hupd]
      exact ⟨alookup_aupdate_self _ _ _, alookup_aupdate_self _ _ _⟩
  · intro h
    cases hc : alookup k s.data with
    | none => simp [Store.expire, hc]
    | some c =>
      cases c with
      | nil => simp [Store.expire, hc]
      | cons v rest => simp [Store.expire, hc] at h

theorem c7_expire_spec_witness :
    ((emptyStore.set ['k'] ['v'] 0 10).expire ['k'] 50 100).1 = true ∧
    alookup ['k'] ((emptyStore.set ['k'] ['v'] 0 10).expire ['k'] 50 100).2.data
        = some [⟨['v'], 10, 150⟩] ∧
    alookup ['k'] ((emptyStore.set ['k'] ['v'] 0 10).expire ['k'] 50 100).2.ttlWheel
        = some 150 ∧
    (emptyStore.expire ['k'] 50 100).1 = false ∧
    (emptyStore.expire ['k'] 50 100).2 = emptyStore :=
  ⟨(c7_expire_spec (emptyStore.set ['k'] ['v'] 0 10) ['k'] 50 100).1.mpr
      ⟨[⟨['v'], 10, 0⟩], rfl, by decide⟩,
   ((c7_expire_spec (emptyStore.set ['k'] ['v'] 0 10) ['k'] 50 100).2.1 _ _ rfl rfl).1,
   ((c7_expire_spec (emptyStore.set ['k'] ['v'] 0 10) ['k'] 50 100).2.1 _ _ rfl rfl).2,
   by decide,
   (c7_expire_spec emptyStore ['k'] 50 100).2.2 rfl⟩

/-- C9 (counterexample): the dispatcher's seconds→milliseconds
multiplication and the expiry addition are int64 operations, so the
claimed consequences of a negative seconds argument fail. Instance A:
with `s = -2^54` at `now = 1700000000000` on an existing key, EXPIRE
answers Integer 1 but `s·1000` wraps, leaving a tail expiry far in the
future — TTL then reports a huge positive remainder and Get still finds
the key, and the tail expiry is not the mathematical `now + s·1000`.
Instance B: with `s = -1` at `now = 1000`, the computed expiry is
exactly `0`, which means "no expiration": TTL answers `-1` (not `-2`)
and Get finds the key. -/
theorem c9_expire_negative_counterexample :
    (handleExpire (emptyStore.set ['k'] ['v'] 0 1000) ['k'] (-(2 ^ 54)) 1700000000000).1
        = .integer 1 ∧
    (chainOf (handleExpire (emptyStore.set ['k'] ['v'] 0 1000) ['k'] (-(2 ^ 54))
        1700000000000).2 ['k']).getLast? = some ⟨['v'], 1000, 432347264227567616⟩ ∧
    (handleExpire (emptyStore.set ['k'] ['v'] 0 1000) ['k'] (-(2 ^ 54))
        1700000000000).2.ttl ['k'] 1700000000001 = 432345564227567615 ∧
    (handleExpire (emptyStore.set ['k'] ['v'] 0 1000) ['k'] (-(2 ^ 54))
        1700000000000).2.getAt ['k'] 1700000000001 = some ['v'] ∧
    (handleExpire (emptyStore.set ['k'] ['v'] 0 900) ['k'] (-1) 1000).1 = .integer 1 ∧
    (handleExpire (emptyStore.set ['k'] ['v'] 0 900) ['k'] (-1) 1000).2.ttl ['k'] 1001
        = -1 ∧
    (handleExpire (emptyStore.set ['k'] ['v'] 0 900) ['k'] (-1) 1000).2.getAt ['k'] 1001
        = some ['v'] :=
  ⟨rfl, rfl, rfl, rfl, rfl, rfl, rfl⟩

/-- C9 (amended): for every existing key and every parseable seconds
argument the EXPIRE handler performs no sign check and answers Integer 1,
setting the tail expiry to `now + s·1000` computed in int64 arithmetic.
When `s` is negative, `s·1000` does not overflow int64, and the computed
expiry `now + s·1000` is positive (hence in the past), every later TTL
query answers `-2` and every later Get finds nothing. -/
theorem c9_expire_no_sign_check (s : Store) (k : List Char) (secs now : Int)
    (c : List Value) (hc : alookup k s.data = some c) (hne : c ≠ []) :
    (handleExpire s k secs now).1 = .integer 1 ∧
    (∀ v, c.getLast? = some v → v.timestamp ≤ now →
      secs < 0 → -(2 ^ 53) ≤ secs → 0 ≤ now → now < 2 ^ 62 → 0 < now + secs * 1000 →
      (chainOf (handleExpire s k secs now).2 k).getLast?
          = some { v with ttl := now + secs * 1000 } ∧
      now + secs * 1000 < now ∧
      (∀ now2, now ≤ now2 →
        (handleExpire s k secs now).2.ttl k now2 = -2 ∧
        (handleExpire s k secs now).2.getAt k now2 = none)) := by
  obtain ⟨v0, rest0, rfl⟩ := List.exists_cons_of_ne_nil hne
  constructor
  · simp [handleExpire, Store.expire, hc]
  · intro v hv hvts hneg hlo hnow0 hnowhi hpos
    have hm : wrap64 (secs * 1000) = secs * 1000 :=
      wrap64_eq_self (by omega) (by omega)
    have he : wrap64 (now + secs * 1000) = now + secs * 1000 :=
      wrap64_eq_self (by omega) (by omega)
    have hupd := updateLast_eq (e := wrap64 (now + wrap64 (secs * 1000))) hv
    have hE : wrap64 (now + wrap64 (secs * 1000)) = now + secs * 1000 := by
      rw [hm, he]
    rw [hE] at hupd
    have hstate : (handleExpire s k secs now).2 =
        { data := aupdate k (updateLast (now + secs * 1000) (v0 :: rest0)) s.data,
          ttlWheel := aupdate k (now + secs * 1000) s.ttlWheel } := by
      simp [handleExpire, Store.expire, hc, hE]
    have hchain : alookup k (handleExpire s k secs now).2.data
        = some ((v0 :: rest0).dropLast ++ [{ v with ttl := now + secs * 1000 }]) := by
      rw [hstate]
      simp only [alookup_aupdate_self, hupd]
    refine ⟨?_, by omega, ?_⟩
    · simp only [chainOf, hchain, Option.getD_some, List.getLast?_concat]
    · intro now2 hnow2
      have h1 : ¬ (now + secs * 1000 = 0) := by omega
      have h2 : now + secs * 1000 ≤ now2 := by omega
      have h3 : (0 : Int) < now + secs * 1000 := by omega
      constructor
      · simp [Store.ttl, hchain, List.getLast?_concat, h1, h2]
      · have hrev : ((v0 :: rest0).dropLast
            ++ [{ v with ttl := now + secs * 1000 }]).reverse
            = { v with ttl := now + secs * 1000 } :: (v0 :: rest0).dropLast.reverse := by
          simp
        have h4 : v.timestamp ≤ now2 := by omega
        simp only [Store.getAt, hchain, hrev]
        simp [List.find?, h4, h2, h3]

theorem c9_expire_no_sign_check_witness :
    (handleExpire (emptyStore.set ['k'] ['v'] 0 10) ['k'] (-2) 10000).1 = .integer 1 ∧
    (chainOf (handleExpire (emptyStore.set ['k'] ['v'] 0 10) ['k'] (-2) 10000).2
        ['k']).getLast? = some ⟨['v'], 10, 8000⟩ ∧
    (handleExpire (emptyStore.set ['k'] ['v'] 0 10) ['k'] (-2) 10000).2.ttl ['k'] 10000
        = -2 ∧
    (handleExpire (emptyStore.set ['k'] ['v'] 0 10) ['k'] (-2) 10000).2.getAt ['k'] 10000
        = none :=
  ⟨(c9_expire_no_sign_check (emptyStore.set ['k'] ['v'] 0 10) ['k'] (-2) 10000
      [⟨['v'], 10, 0⟩] rfl (by decide)).1,
   ((c9_expire_no_sign_check (emptyStore.set ['k'] ['v'] 0 10) ['k'] (-2) 10000
      [⟨['v'], 10, 0⟩] rfl (by decide)).2 _ rfl (by decide) (by decide) (by decide)
      (by decide) (by decide) (by decide)).1,
   (((c9_expire_no_sign_check (emptyStore.set ['k'] ['v'] 0 10) ['k'] (-2) 10000
      [⟨['v'], 10, 0⟩] rfl (by decide)).2 _ rfl (by decide) (by decide) (by decide)
      (by decide) (by decide) (by decide)).2.2 10000 (by decide)).1,
   (((c9_expire_no_sign_check (emptyStore.set ['k'] ['v'] 0 10) ['k'] (-2) 10000
      [⟨['v'], 10, 0⟩] rfl (by decide)).2 _ rfl (by decide) (by decide) (by decide)
      (by decide) (by decide) (by decide)).2.2 10000 (by decide)).2⟩

theorem mem_insertDesc {x v : Value} {l : List Value} :
    x ∈ insertDesc v l ↔ x = v ∨ x ∈ l := by
  induction l with
  | nil => simp [insertDesc]
  | cons w ws ih =>
    by_cases h : v.timestamp > w.timestamp
    · simp [insertDesc, h]
    · simp only [insertDesc, if_neg h, List.mem_cons, ih]
      tauto

theorem insertDesc_pairwise {v : Value} {l : List Value}
    (h : List.Pairwise (fun a b => b.timestamp ≤ a.timestamp) l) :
    List.Pairwise (fun a b => b.timestamp ≤ a.timestamp) (insertDesc v l) := by
  induction l with
  | nil => simp [insertDesc]
  | cons w ws ih =>
    rcases List.pairwise_cons.mp h with ⟨hw, hws⟩
    by_cases hc : v.timestamp > w.timestamp
    · rw [insertDesc, if_pos hc]
      refine List.pairwise_cons.mpr ⟨?_, h⟩
      intro x hx
      rcases List.mem_cons.mp hx with rfl | hx
      · omega
      · have := hw x hx
        omega
    · rw [insertDesc, if_neg hc]
      refine List.pairwise_cons.mpr ⟨?_, ih hws⟩
      intro x hx
      rcases mem_insertDesc.mp hx with rfl | hx
      · omega
      · exact hw x hx

theorem sortDesc_pairwise (l : List Value) :
    List.Pairwise (fun a b => b.timestamp ≤ a.timestamp) (sortDesc l) := by
  induction l with
  | nil => simp [sortDesc]
  | cons v vs ih =>
    rw [sortDesc]
    exact insertDesc_pairwise ih

theorem insertDesc_length (v : Value) (l : List Value) :
    (insertDesc v l).length = l.length + 1 := by
  induction l with
  | nil => simp [insertDesc]
  | cons w ws ih =>
    by_cases h : v.timestamp > w.timestamp
    · simp [insertDesc, h]
    · simp [insertDesc, h, ih]

theorem sortDesc_length (l : List Value) : (sortDesc l).length = l.length := by
  induction l with
  | nil => simp [sortDesc]
  | cons v vs ih => simp [sortDesc, insertDesc_length, ih]

theorem history_pairwise (s : Store) (k : List Char) (limit : Int) :
    List.Pairwise (fun a b => b.timestamp ≤ a.timestamp) (s.history k limit) := by
  unfold Store.history
  cases h : alookup k s.data with
  | none => simp
  | some versions =>
    dsimp only
    have hs := sortDesc_pairwise versions
    by_cases hcond : 0 < limit ∧ limit < ((sortDesc versions).length : Int)
    · rw [if_pos hcond]
      exact hs.sublist (List.take_sublist _ _)
    · rw [if_neg hcond]
      exact hs

theorem histPairs_length (l : List Value) : (histPairs l).length = 2 * l.length := by
  induction l with
  | nil => simp [histPairs]
  | cons v vs ih =>
    simp only [histPairs, List.length_cons, ih]
    omega

theorem histPairs_getElem_even :
    ∀ (l : List Value) (i : Nat) (h2 : i < l.length),
    (histPairs l)[2 * i]? = some (.integer ((l.get ⟨i, h2⟩).timestamp))
  | v :: vs, 0, _ => by simp [histPairs]
  | v :: vs, i + 1, h => by
    have h2 : i < vs.length := by simpa using Nat.lt_of_succ_lt_succ h
    have ih := histPairs_getElem_even vs i h2
    have hidx : 2 * (i + 1) = 2 * i + 1 + 1 := by omega
    rw [hidx]
    simp only [histPairs, List.getElem?_cons_succ]
    rw [ih]
    rfl

theorem histPairs_getElem_odd :
    ∀ (l : List Value) (i : Nat) (h2 : i < l.length),
    (histPairs l)[2 * i + 1]? = some (.bulkString ((l.get ⟨i, h2⟩).data))
  | v :: vs, 0, _ => by simp [histPairs]
  | v :: vs, i + 1, h => by
    have h2 : i < vs.length := by simpa using Nat.lt_of_succ_lt_succ h
    have ih := histPairs_getElem_odd vs i h2
    have hidx : 2 * (i + 1) + 1 = 2 * i + 1 + 1 + 1 := by omega
    rw [hidx]
    simp only [histPairs, List.getElem?_cons_succ]
    rw [ih]
    rfl

/-- C10: the HIST handler's response is always a non-null Array with
exactly two elements per history entry — the Integer write timestamp at
even positions and the BulkString payload at odd positions, newest entry
first — and for a missing key the serialized response is the empty array
frame `*0\r\n`, never the null array `*-1\r\n`. -/
theorem c10_hist_response (s : Store) (k : List Char) (limit : Int) :
    (∃ es, handleHist s k limit = .array es ∧
      es.length = 2 * (s.history k limit).length ∧
      (∀ i, ∀ h2 : i < (s.history k limit).length,
        es[2 * i]? = some (.integer (((s.history k limit).get ⟨i, h2⟩).timestamp)) ∧
        es[2 * i + 1]? = some (.bulkString (((s.history k limit).get ⟨i, h2⟩).data)))) ∧
    handleHist s k limit ≠ .nullArray ∧
    (alookup k s.data = none →
      serializeRESP (handleHist s k limit) = ['*', '0', '\r', '\n']) ∧
    List.Pairwise (fun a b => b.timestamp ≤ a.timestamp) (s.history k limit) := by
  refine ⟨⟨histPairs (s.history k limit), rfl, histPairs_length _, ?_⟩, ?_, ?_, ?_⟩
  · intro i h2
    exact ⟨histPairs_getElem_even _ i h2, histPairs_getElem_odd _ i h2⟩
  · simp [handleHist]
  · intro h
    simp only [handleHist, Store.history, h, histPairs]
    rfl
  · exact history_pairwise s k limit

theorem c10_hist_response_witness :
    serializeRESP (handleHist emptyStore ['k'] 0) = ['*', '0', '\r', '\n'] ∧
    handleHist (emptyStore.set ['k'] ['v'] 0 5) ['k'] 0 ≠ .nullArray ∧
    (∃ es, handleHist (emptyStore.set ['k'] ['v'] 0 5) ['k'] 0 = .array es ∧
      es[0]? = some (.integer 5) ∧ es[1]? = some (.bulkString ['v'])) := by
  refine ⟨(c10_hist_response emptyStore ['k'] 0).2.2.1 rfl,
    (c10_hist_response (emptyStore.set ['k'] ['v'] 0 5) ['k'] 0).2.1, ?_⟩
  obtain ⟨es, he, _, hget⟩ := (c10_hist_response (emptyStore.set ['k'] ['v'] 0 5) ['k'] 0).1
  exact ⟨es, he, (hget 0 (by decide)).1, (hget 0 (by decide)).2⟩

theorem chainOf_set (s : Store) (k v : List Char) (ttl now : Int) :
    chainOf (s.set k v ttl now) k =
      if (chainOf s k ++ [(⟨v, now, if ttl > 0 then wrap64 (now + ttl) else 0⟩ : Value)]).length
          > maxVersions
      then (chainOf s k ++ [(⟨v, now, if ttl > 0 then wrap64 (now + ttl) else 0⟩ : Value)]).drop
        ((chainOf s k ++ [(⟨v, now, if ttl > 0 then wrap64 (now + ttl) else 0⟩ : Value)]).length
          - maxVersions)
      else chainOf s k ++ [(⟨v, now, if ttl > 0 then wrap64 (now + ttl) else 0⟩ : Value)] := by
  simp only [Store.set, chainOf, alookup_aupdate_self, Option.getD_some]

theorem chainOf_set_length (s : Store) (k v : List Char) (ttl now : Int) :
    (chainOf (s.set k v ttl now) k).length = min ((chainOf s k).length + 1) maxVersions := by
  rw [chainOf_set]
  by_cases h : (chainOf s k ++ [(⟨v, now, if ttl > 0 then wrap64 (now + ttl) else 0⟩ : Value)]).length > maxVersions
  · rw [if_pos h]
    rw [List.length_drop]
    simp only [List.length_append, List.length_cons, List.length_nil] at h ⊢
    omega
  · rw [if_neg h]
    simp only [List.length_append, List.length_cons, List.length_nil] at h ⊢
    omega

/-- A sequence of `Set` calls on one key: each entry carries the value,
the `ttl_ms` argument, and the clock reading of that call. -/
def setSeq (k : List Char) (writes : List (List Char × Int × Int)) (s : Store) : Store :=
  writes.foldl (fun st w => st.set k w.1 w.2.1 w.2.2) s

/-- A sequence of zero-TTL `Set` calls on one key (value, clock reading). -/
def setSeq0 (k : List Char) (writes : List (List Char × Int)) (s : Store) : Store :=
  writes.foldl (fun st w => st.set k w.1 0 w.2) s

theorem setSeq_chain_length (k : List Char) :
    ∀ (writes : List (List Char × Int × Int)) (s : Store),
    (chainOf s k).length ≤ maxVersions →
    (chainOf (setSeq k writes s) k).length
      = min ((chainOf s k).length + writes.length) maxVersions
  | [], s, h => by
    simp only [setSeq, List.foldl_nil, List.length_nil]
    omega
  | w :: ws, s, h => by
    have hstep := chainOf_set_length s k w.1 w.2.1 w.2.2
    have hle : (chainOf (s.set k w.1 w.2.1 w.2.2) k).length ≤ maxVersions := by
      rw [hstep]; omega
    have ih := setSeq_chain_length k ws (s.set k w.1 w.2.1 w.2.2) hle
    simp only [setSeq, List.foldl_cons] at ih ⊢
    rw [ih, hstep]
    simp only [List.length_cons]
    omega

theorem setSeq0_chain (k : List Char) :
    ∀ (writes : List (List Char × Int)) (s : Store),
    (chainOf s k).length + writes.length ≤ maxVersions →
    chainOf (setSeq0 k writes s) k
      = chainOf s k ++ writes.map (fun w => (⟨w.1, w.2, 0⟩ : Value))
  | [], s, h => by simp [setSeq0]
  | w :: ws, s, h => by
    have hstep : chainOf (s.set k w.1 0 w.2) k = chainOf s k ++ [⟨w.1, w.2, 0⟩] := by
      rw [chainOf_set]
      simp only [List.length_cons] at h
      rw [if_neg (by
        simp only [List.length_append, List.length_cons, List.length_nil]
        omega)]
      norm_num
    have ih := setSeq0_chain k ws (s.set k w.1 0 w.2) (by
      rw [hstep]
      simp only [List.length_append, List.length_cons, List.length_nil]
      simp only [List.length_cons] at h
      omega)
    simp only [setSeq0, List.foldl_cons] at ih ⊢
    rw [ih, hstep]
    simp [List.map_cons]

theorem find_rev_eq_filter_getLast (p : Value → Bool) (l : List Value) :
    l.reverse.find? p = (l.filter p).getLast? := by
  induction l using List.reverseRecOn with
  | nil => simp
  | append_singleton l a ih =>
    rw [List.reverse_append, List.reverse_singleton, List.singleton_append,
      List.filter_append, List.find?_cons]
    by_cases h : p a
    · simp only [h]
      rw [show List.filter p [a] = [a] by simp [h]]
      rw [List.getLast?_concat]
    · simp only [h]
      rw [show List.filter p [a] = [] by simp [h]]
      rw [List.append_nil, ih]

theorem find_rev_eq_none (t : Int) (c : List Value)
    (hgt : ∀ v ∈ c, t < v.timestamp) :
    c.reverse.find? (fun v => decide (v.timestamp ≤ t)) = none := by
  rw [List.find?_eq_none]
  intro x hx
  have := hgt x (List.mem_reverse.mp hx)
  simp
  omega

theorem find_rev_eq_some (t : Int) (c : List Value) :
    ∀ (i : Nat) (hi : i < c.length),
    (c.get ⟨i, hi⟩).timestamp ≤ t →
    (∀ j (hj : j < c.length), i < j → t < (c.get ⟨j, hj⟩).timestamp) →
    c.reverse.find? (fun v => decide (v.timestamp ≤ t)) = some (c.get ⟨i, hi⟩) := by
  induction c using List.reverseRecOn with
  | nil => intro i hi; simp at hi
  | append_singleton l a ih =>
    intro i hi hle hgt
    have hlen : (l ++ [a]).length = l.length + 1 := by simp
    by_cases hia : i = l.length
    · subst hia
      have hga : (l ++ [a]).get ⟨l.length, hi⟩ = a := by
        simp [List.get_eq_getElem]
      rw [hga] at hle ⊢
      have hpa : decide (a.timestamp ≤ t) = true := by
        simp
        omega
      simp only [List.reverse_append, List.reverse_singleton, List.singleton_append]
      rw [List.find?_cons]
      simp only [hpa]
    · have hi2 : i < l.length := by omega
      have hga : (l ++ [a]).get ⟨l.length, by omega⟩ = a := by
        simp [List.get_eq_getElem]
      have hta : t < a.timestamp := by
        have := hgt l.length (by omega) (by omega)
        rw [hga] at this
        exact this
      have hpa : decide (a.timestamp ≤ t) = false := by
        simp
        omega
      have hgetl : ∀ (j : Nat) (hj : j < l.length),
          (l ++ [a]).get ⟨j, by omega⟩ = l.get ⟨j, hj⟩ := by
        intro j hj
        simp only [List.get_eq_getElem]
        exact List.getElem_append_left hj
      simp only [List.reverse_append, List.reverse_singleton, List.singleton_append]
      rw [List.find?_cons]
      simp only [hpa]
      rw [ih i hi2 (by rw [← hgetl i hi2]; exact hle)
        (fun j hj hij => by rw [← hgetl j hj]; exact hgt j (by omega) hij)]
      rw [hgetl i hi2]

theorem alookup_of_chainOf_ne_nil {s : Store} {k : List Char} (h : chainOf s k ≠ []) :
    alookup k s.data = some (chainOf s k) := by
  unfold chainOf at *
  cases hl : alookup k s.data with
  | none => rw [hl] at h; simp at h
  | some c => simp

/-- The eleven writes of the C3 counterexample: strictly increasing
timestamps 1..11, one more than `MaxVersions`. -/
def c3Writes : List (List Char × Int) :=
  [(['a'], 1), (['b'], 2), (['c'], 3), (['d'], 4), (['e'], 5), (['f'], 6),
   (['g'], 7), (['h'], 8), (['i'], 9), (['j'], 10), (['k'], 11)]

/-- C3 (counterexample): after a sequence of 11 zero-TTL writes with
strictly increasing timestamps, `GetAt` at the first write's timestamp
returns not-found — the oldest version was truncated away — although the
claim promises `v₁`. -/
theorem c3_getat_mvcc_counterexample :
    List.Pairwise (fun a b => a.2 < b.2) c3Writes ∧
    c3Writes.length = 11 ∧
    (c3Writes.get ⟨0, by decide⟩).2 = 1 ∧
    (setSeq0 ['x'] c3Writes emptyStore).getAt ['x'] 1 = none := by decide

/-- C3 (amended): `GetAt(k, ts)` selects the last version in `k`'s chain
whose `write_ts ≤ ts`, returns not-found when no such version exists or
when the selected version has `expiry_ts > 0` with `ts ≥ expiry_ts`, and
otherwise returns its payload. In particular, for a sequence of at most
`MaxVersions` writes `Set(k, v_i, 0)` with strictly increasing write
timestamps starting from an empty store, `GetAt(k, ts_i) = v_i` and
`GetAt(k, ts_i - 1) = v_(i-1)` (not-found when `i` is the first index);
for longer sequences the oldest versions are truncated and queries at
their timestamps return not-found. -/
theorem c3_getat_mvcc (s0 : Store) (k0 : List Char) (ts0 : Int) :
    (s0.getAt k0 ts0 =
      match ((chainOf s0 k0).filter (fun v => decide (v.timestamp ≤ ts0))).getLast? with
      | none => none
      | some v => if v.ttl > 0 ∧ ts0 ≥ v.ttl then none else some v.data) ∧
    (∀ (k : List Char) (writes : List (List Char × Int)),
      writes.length ≤ maxVersions →
      List.Pairwise (fun a b => a.2 < b.2) writes →
      ∀ i, ∀ hi : i < writes.length,
        (setSeq0 k writes emptyStore).getAt k (writes.get ⟨i, hi⟩).2
            = some (writes.get ⟨i, hi⟩).1 ∧
        (i = 0 → (setSeq0 k writes emptyStore).getAt k ((writes.get ⟨i, hi⟩).2 - 1) = none) ∧
        (∀ j, ∀ hj : j < writes.length, i = j + 1 →
          (setSeq0 k writes emptyStore).getAt k ((writes.get ⟨i, hi⟩).2 - 1)
            = some ((writes.get ⟨j, hj⟩).1))) := by
  constructor
  · unfold Store.getAt chainOf
    cases h : alookup k0 s0.data with
    | none => simp
    | some versions =>
      simp only [Option.getD_some]
      rw [find_rev_eq_filter_getLast]
  · intro k writes hlen hpair i hi
    have hchain : chainOf (setSeq0 k writes emptyStore) k
        = writes.map (fun w => (⟨w.1, w.2, 0⟩ : Value)) := by
      have h := setSeq0_chain k writes emptyStore (by
        simp only [chainOf, emptyStore, alookup, Option.getD_none, List.length_nil]
        omega)
      simpa only [chainOf, emptyStore, alookup, Option.getD_none, List.nil_append] using h
    have hne : writes ≠ [] := by
      intro h0
      subst h0
      simp at hi
    have hlk : alookup k (setSeq0 k writes emptyStore).data
        = some (writes.map (fun w => (⟨w.1, w.2, 0⟩ : Value))) := by
      have h := alookup_of_chainOf_ne_nil (s := setSeq0 k writes emptyStore) (k := k)
        (by rw [hchain]; simp [hne])
      rw [hchain] at h
      exact h
    have hga : ∀ t, (setSeq0 k writes emptyStore).getAt k t
        = match (writes.map (fun w => (⟨w.1, w.2, 0⟩ : Value))).reverse.find?
            (fun v => decide (v.timestamp ≤ t)) with
          | none => none
          | some v => if v.ttl > 0 ∧ t ≥ v.ttl then none else some v.data := by
      intro t
      unfold Store.getAt
      rw [hlk]
    have hmlen : (writes.map (fun w => (⟨w.1, w.2, 0⟩ : Value))).length = writes.length :=
      List.length_map _ _
    have hts : ∀ (a b : Nat) (ha : a < writes.length) (hb : b < writes.length), a < b →
        (writes.get ⟨a, ha⟩).2 < (writes.get ⟨b, hb⟩).2 := fun a b ha hb hab =>
      List.pairwise_iff_get.mp hpair ⟨a, ha⟩ ⟨b, hb⟩ hab
    refine ⟨?_, ?_, ?_⟩
    · have hfind := find_rev_eq_some ((writes.get ⟨i, hi⟩).2)
        (writes.map (fun w => (⟨w.1, w.2, 0⟩ : Value))) i
        (by rw [hmlen]; exact hi)
        (by simp only [List.get_eq_getElem, List.getElem_map]; exact le_refl _)
        (fun j hj hij => by
          have hjw : j < writes.length := by rw [hmlen] at hj; exact hj
          simp only [List.get_eq_getElem, List.getElem_map]
          have := hts i j hi hjw hij
          simpa only [List.get_eq_getElem] using this)
      rw [hga, hfind]
      simp only [List.get_eq_getElem, List.getElem_map]
      rw [if_neg (by simp)]
    · intro h0
      subst h0
      rw [hga, find_rev_eq_none]
      intro v hv
      obtain ⟨⟨j, hj⟩, rfl⟩ := List.mem_iff_get.mp hv
      have hjw : j < writes.length := by rw [hmlen] at hj; exact hj
      simp only [List.get_eq_getElem, List.getElem_map]
      rcases Nat.eq_zero_or_pos j with hj0 | hj0
      · subst hj0
        omega
      · have := hts 0 j hi hjw hj0
        simp only [List.get_eq_getElem] at this
        omega
    · intro j hj hij
      have hfind := find_rev_eq_some ((writes.get ⟨i, hi⟩).2 - 1)
        (writes.map (fun w => (⟨w.1, w.2, 0⟩ : Value))) j
        (by rw [hmlen]; exact hj)
        (by
          simp only [List.get_eq_getElem, List.getElem_map]
          have := hts j i hj hi (by omega)
          simp only [List.get_eq_getElem] at this
          omega)
        (fun j2 hj2 hjj2 => by
          have hj2w : j2 < writes.length := by rw [hmlen] at hj2; exact hj2
          simp only [List.get_eq_getElem, List.getElem_map]
          by_cases hji : j2 = i
          · subst hji
            omega
          · have hgt2 : i < j2 := by omega
            have := hts i j2 hi hj2w hgt2
            simp only [List.get_eq_getElem] at this ⊢
            omega)
      rw [hga, hfind]
      simp only [List.get_eq_getElem, List.getElem_map]
      rw [if_neg (by simp)]

theorem c3_getat_mvcc_witness :
    (emptyStore.getAt ['q'] 3 = none) ∧
    (setSeq0 ['x'] [(['a'], 5), (['b'], 7)] emptyStore).getAt ['x'] 7 = some ['b'] ∧
    (setSeq0 ['x'] [(['a'], 5), (['b'], 7)] emptyStore).getAt ['x'] 6 = some ['a'] ∧
    (setSeq0 ['x'] [(['a'], 5), (['b'], 7)] emptyStore).getAt ['x'] 4 = none := by
  have h1 := (c3_getat_mvcc emptyStore ['q'] 3).1
  have h2 := (c3_getat_mvcc emptyStore ['q'] 3).2 ['x'] [(['a'], 5), (['b'], 7)]
    (by decide) (by decide)
  exact ⟨h1, (h2 1 (by decide)).1, (h2 1 (by decide)).2.2 0 (by decide) rfl,
    (h2 0 (by decide)).2.1 rfl⟩

theorem history_zero_length (s : Store) (k : List Char) :
    (s.history k 0).length = (chainOf s k).length := by
  unfold Store.history chainOf
  cases h : alookup k s.data with
  | none => simp
  | some versions =>
    simp only [Option.getD_some]
    rw [if_neg (by simp)]
    exact sortDesc_length versions

theorem history_take (s : Store) (k : List Char) (limit : Int) (h : 0 < limit) :
    s.history k limit = (s.history k 0).take limit.toNat := by
  unfold Store.history
  cases hc : alookup k s.data with
  | none => simp
  | some versions =>
    simp only []
    rw [if_neg (by simp : ¬ ((0 : Int) < 0 ∧ (0 : Int) < ((sortDesc versions).length : Int)))]
    by_cases hlt : limit < ((sortDesc versions).length : Int)
    · rw [if_pos ⟨h, hlt⟩]
    · rw [if_neg (fun hh => hlt hh.2)]
      rw [List.take_of_length_le (by omega)]

/-- The fifteen writes of the C4 scenario: values `v01..v15`, no TTL,
strictly increasing clock readings 1..15. -/
def c4Writes : List (List Char × Int × Int) :=
  [(['v', '0', '1'], 0, 1), (['v', '0', '2'], 0, 2), (['v', '0', '3'], 0, 3),
   (['v', '0', '4'], 0, 4), (['v', '0', '5'], 0, 5), (['v', '0', '6'], 0, 6),
   (['v', '0', '7'], 0, 7), (['v', '0', '8'], 0, 8), (['v', '0', '9'], 0, 9),
   (['v', '1', '0'], 0, 10), (['v', '1', '1'], 0, 11), (['v', '1', '2'], 0, 12),
   (['v', '1', '3'], 0, 13), (['v', '1', '4'], 0, 14), (['v', '1', '5'], 0, 15)]

/-- The ten entries `HIST k 0` must produce after the fifteen writes:
`v15, v14, …, v06`, newest first. -/
def c4Expected : List Value :=
  [⟨['v', '1', '5'], 15, 0⟩, ⟨['v', '1', '4'], 14, 0⟩, ⟨['v', '1', '3'], 13, 0⟩,
   ⟨['v', '1', '2'], 12, 0⟩, ⟨['v', '1', '1'], 11, 0⟩, ⟨['v', '1', '0'], 10, 0⟩,
   ⟨['v', '0', '9'], 9, 0⟩, ⟨['v', '0', '8'], 8, 0⟩, ⟨['v', '0', '7'], 7, 0⟩,
   ⟨['v', '0', '6'], 6, 0⟩]

/-- C4: after any sequence of `n` `Set(k, _, _)` calls from an empty
store, `History(k, 0)` has exactly `min n MAX_VERSIONS` entries; the
history output is always ordered newest-first by write timestamp; after
the fifteen writes `v01..v15` it is exactly `v15…v06`; and a positive
`limit` truncates the result to the first `limit` entries. -/
theorem c4_history_retention :
    (∀ (k : List Char) (writes : List (List Char × Int × Int)),
      ((setSeq k writes emptyStore).history k 0).length = min writes.length maxVersions) ∧
    (∀ (s : Store) (k : List Char) (limit : Int),
      List.Pairwise (fun a b => b.timestamp ≤ a.timestamp) (s.history k limit)) ∧
    (setSeq ['k'] c4Writes emptyStore).history ['k'] 0 = c4Expected ∧
    (∀ (s : Store) (k : List Char) (limit : Int), 0 < limit →
      s.history k limit = (s.history k 0).take limit.toNat) := by
  refine ⟨?_, history_pairwise, by decide, history_take⟩
  intro k writes
  rw [history_zero_length]
  rw [setSeq_chain_length k writes emptyStore (by
    simp [chainOf, emptyStore, alookup, maxVersions])]
  simp [chainOf, emptyStore, alookup]

theorem c4_history_retention_witness :
    ((setSeq ['k'] [(['a'], 0, 1), (['b'], 0, 2)] emptyStore).history ['k'] 0).length = 2 ∧
    (setSeq ['k'] [(['a'], 0, 1), (['b'], 0, 2)] emptyStore).history ['k'] 1
      = ((setSeq ['k'] [(['a'], 0, 1), (['b'], 0, 2)] emptyStore).history ['k'] 0).take 1 :=
  ⟨c4_history_retention.1 ['k'] [(['a'], 0, 1), (['b'], 0, 2)],
   c4_history_retention.2.2.2 (setSeq ['k'] [(['a'], 0, 1), (['b'], 0, 2)] emptyStore)
     ['k'] 1 (by decide)⟩
